import Mathlib

/-!
# go-download: a shallow embedding of `main.go`

The development models the chunked, resumable transfer engine of the downloader:

* `NewFileDownload` : the tier table choosing `worknum` and `blockSize`;
* `planBlocks` / `planRounds` : the block planner inside `FileDownload.download`;
* `BlockFile.download`, `BlockFile.startDownload`, `isFileExit` : one block's resumable fetch;
* `fb`, `mergeBlocks` : the merge of a round's block files into the destination;
* `FileDownload.download` : the scheduling loop with the final size check.

Go `int64` values are integers; every addition or subtraction that can leave the
`int64` range goes through `wrap64`.  Files are lists of bytes.  The progress
counters `currentSize` and `preSize` are only read by the progress printer and never
influence control flow, so they are left out of the state.
-/

namespace GoDownload

/-- A byte of file content. -/
abbrev Byte := Nat

/-- Two's complement wrap-around of a Go `int64` result. -/
def wrap64 (x : Int) : Int :=
  (x + 9223372036854775808) % 18446744073709551616 - 9223372036854775808

/-- The largest `int64`. -/
def maxInt64 : Int := 9223372036854775807

/-- Errors of the engine.  `panicked` is the run-time panic of a slice expression with a
negative bound, `outOfFuel` says that the bounded model of a loop was cut off. -/
inductive DownloadErr where
  | network
  | readFailed
  | openFailed
  | writeFailed
  | alreadyExists
  | nonsupport
  | sizeMismatch (filesize total : Int)
  | panicked
  | outOfFuel
  deriving DecidableEq, Repr

/-- The block file of `main.go` (`type BlockFile struct`).  `filename` is the pair
`(begin, end)` printed into `"%s.lxwtmp-%d-%d"`; the open file handle is the content kept
in the block file system. -/
structure BlockFile where
  filename : Int × Int
  start : Int
  end_ : Int
  offset : Int
  deriving DecidableEq, Repr

/-- The download descriptor of `main.go` (`type FileDownload struct`), without the url, the
names and the progress counters. -/
structure FileDownload where
  worknum : Int
  size : Int
  blockSize : Int
  err : Option DownloadErr
  blocks : List BlockFile
  offset : Int
  deriving DecidableEq, Repr

/-- The answer to the initial `http.Get`: whether `Accept-Ranges` is `bytes`, and the
content length. -/
structure ProbeResponse where
  acceptRanges : Bool
  contentLength : Int
  deriving DecidableEq, Repr

/-- Function `isFileExit`.  `info` is the size reported by `os.Stat` (`none` when the file
does not exist): `(false, 0)` for an absent file, `(true, -1)` for a file of at least
`filesize` bytes, `(true, size)` otherwise. -/
def isFileExit (info : Option Nat) (filesize : Int) : Bool × Int :=
  match info with
  | none => (false, 0)
  | some n => if (n : Int) ≥ filesize then (true, -1) else (true, (n : Int))

/-- Function `NewFileDownload`.  `resp` is the probe answer (`none` when `http.Get` fails),
`dest` the size of the destination file on disk (`none` when absent).  `size - start`
cannot overflow, because it is only taken for `0 < start < size`. -/
def NewFileDownload (resp : Option ProbeResponse) (dest : Option Nat) :
    Except DownloadErr FileDownload :=
  match resp with
  | none => .error .network
  | some resp =>
    if resp.acceptRanges = false then .error .nonsupport
    else
      let size := resp.contentLength
      let r := isFileExit dest size
      let isExsit := r.1
      let start := r.2
      if isExsit && decide (start < 0) then .error .alreadyExists
      else
        let lessize := if isExsit && decide (start > 0) then size - start else size
        let plan : Int × Int :=
          if lessize ≤ 1024 * 1024 * 10 then (8, lessize.tdiv 8)
          else if lessize > 1024 * 1024 * 10 ∧ lessize ≤ 1024 * 1024 * 100 then
            (16, lessize.tdiv 8)
          else if lessize > 1024 * 1024 * 100 ∧ lessize ≤ 1024 * 1024 * 1024 then
            (32, lessize.tdiv 16)
          else (64, 1024 * 1024 * 64)
        .ok { worknum := plan.1, size := size, blockSize := plan.2, err := none,
              blocks := [], offset := 0 }

/-- The inner planning loop of `FileDownload.download` (`for i := 1; i <= 32; i++`), with
`n` iterations left.  Returns the block list, `begin` and `flag` at loop exit. -/
def planBlocks : Nat → Int → Int → Int → Bool → List BlockFile → List BlockFile × Int × Bool
  | 0, _, _, begin, flag, blocks => (blocks, begin, flag)
  | n + 1, size, blockSize, begin, flag, blocks =>
    if begin > size then (blocks, begin, flag)
    else
      let end0 := wrap64 (begin + blockSize)
      let end_ := if end0 > size then size else end0
      let flag1 := if end0 > size then true else flag
      let blocks1 := blocks ++
        [{ filename := (begin, end_), start := begin, end_ := end_, offset := 0 }]
      if flag1 then (blocks1, begin, flag1)
      else planBlocks n size blockSize (wrap64 (1 + end_)) flag1 blocks1

/-- One planned round: the value of `begin` at the start of the round and its blocks. -/
structure Round where
  begin : Int
  blocks : List BlockFile
  deriving DecidableEq, Repr

/-- The rounds planned by the outer loop `for begin < fd.size && !flag` when every round is
merged without error (`fd.blocks` is empty at the start of each round); `fuel` bounds the
number of rounds. -/
def planRounds : Nat → Int → Int → Int → Bool → List Round
  | 0, _, _, _, _ => []
  | fuel + 1, size, blockSize, begin, flag =>
    if begin < size ∧ flag = false then
      let r := planBlocks 32 size blockSize begin flag []
      { begin := begin, blocks := r.1 } :: planRounds fuel size blockSize r.2.1 r.2.2
    else []

/-- The on-wire byte count of a block, `Range: bytes=start-end` with `end` inclusive. -/
def BlockFile.wireCount (bl : BlockFile) : Int := bl.end_ - bl.start + 1

/-! ## One block's transfer -/

/-- The error value returned by one `resp.Body.Read` besides the data: `io.EOF` or a
transport failure. -/
inductive ReadErr where
  | eof
  | failed
  deriving DecidableEq, Repr

/-- What one `resp.Body.Read(buf)` returns: the bytes put into the buffer and the error. -/
structure Chunk where
  data : List Byte
  err : Option ReadErr
  deriving DecidableEq, Repr

/-- The outcome of `client.Do` for a ranged request: a transport failure, or a body given
as the sequence of its reads.  A body whose reads are used up answers `(0, io.EOF)`. -/
inductive Response where
  | refused
  | body (chunks : List Chunk)
  deriving DecidableEq, Repr

/-- A server: the response to `Range: bytes=start-end`. -/
abbrev Server := Int → Int → Response

/-- The block files on disk, keyed by the `(begin, end)` pair of their file name. -/
abbrev BlockFS := List ((Int × Int) × List Byte)

/-- Content of a block file (`os.Stat` / `os.Open`), `none` when it does not exist. -/
def BlockFS.read : BlockFS → Int × Int → Option (List Byte)
  | [], _ => none
  | (k, v) :: rest, name => if k = name then some v else BlockFS.read rest name

/-- Removal of a block file (`os.Remove`). -/
def BlockFS.remove : BlockFS → Int × Int → BlockFS
  | [], _ => []
  | (k, v) :: rest, name =>
    if k = name then BlockFS.remove rest name else (k, v) :: BlockFS.remove rest name

/-- Replacement of the content of a block file, creating it when absent. -/
def BlockFS.write (fs : BlockFS) (name : Int × Int) (content : List Byte) : BlockFS :=
  (name, content) :: BlockFS.remove fs name

/-- Method `(*os.File).WriteAt`: fails on a negative offset, writes nothing for an empty
slice, and otherwise overwrites from `off`, filling a gap after the end with zero bytes. -/
def writeAt (file : List Byte) (data : List Byte) (off : Int) :
    Except DownloadErr (List Byte) :=
  if off < 0 then .error .writeFailed
  else if data = [] then .ok file
  else .ok (file.take off.toNat ++ List.replicate (off.toNat - file.length) 0 ++ data ++
        file.drop (off.toNat + data.length))

/-- The control decision after one pass of a copy loop. -/
inductive Step where
  | continue_
  | return_ (err : Option DownloadErr)
  deriving DecidableEq, Repr

/-- One pass of the read loop of `BlockFile.download`, for a read that returned `data`
(at most the 4096 bytes of the buffer) and `err`.  A negative `needSize` makes the slice
`buf[:n]` panic.  `bl.offset += nw` is not wrapped: after a successful `WriteAt` the file
extends to `bl.offset + nw`, which is a file size. -/
def BlockFile.readStep (bl : BlockFile) (file : List Byte) (data : List Byte)
    (err : Option ReadErr) : BlockFile × List Byte × Step :=
  let data := data.take 4096
  let needSize := wrap64 (wrap64 (bl.end_ + 1) - bl.offset)
  if (data.length : Int) > needSize ∧ needSize < 0 then (bl, file, .return_ (some .panicked))
  else
    let err := if (data.length : Int) > needSize then some ReadErr.eof else err
    let data := if (data.length : Int) > needSize then data.take needSize.toNat else data
    match writeAt file data bl.offset with
    | .error e => (bl, file, .return_ (some e))
    | .ok file1 =>
      let bl1 := { bl with offset := bl.offset + data.length }
      match err with
      | none => (bl1, file1, .continue_)
      | some .eof => (bl1, file1, .return_ none)
      | some .failed => (bl1, file1, .return_ (some .readFailed))

/-- The read loop of `BlockFile.download` over the reads of the response body. -/
def BlockFile.readLoop : List Chunk → BlockFile → List Byte →
    BlockFile × List Byte × Option DownloadErr
  | [], bl, file =>
    match bl.readStep file [] (some .eof) with
    | (bl1, file1, .continue_) => (bl1, file1, none)
    | (bl1, file1, .return_ e) => (bl1, file1, e)
  | c :: rest, bl, file =>
    match bl.readStep file c.data c.err with
    | (bl1, file1, .continue_) => BlockFile.readLoop rest bl1 file1
    | (bl1, file1, .return_ e) => (bl1, file1, e)

/-- Method `BlockFile.download`: a ranged GET for `bytes=start-end`, streamed into the
block file `file` at `bl.offset`. -/
def BlockFile.download (bl : BlockFile) (server : Server) (file : List Byte) :
    BlockFile × List Byte × Option DownloadErr :=
  match server bl.start bl.end_ with
  | .refused => (bl, file, some .network)
  | .body chunks => BlockFile.readLoop chunks bl file

/-- Method `BlockFile.startDownload`: resume detection on the block file, then
`BlockFile.download` for the remainder.  Returns the block, the block files, `filesize`
and the error.  Opening and creating the block file are taken to succeed. -/
def BlockFile.startDownload (bl : BlockFile) (server : Server) (fs : BlockFS) :
    BlockFile × BlockFS × Int × Option DownloadErr :=
  let filesize := wrap64 (bl.end_ - bl.start)
  let r := isFileExit ((fs.read bl.filename).map List.length) filesize
  let isExit := r.1
  let start := r.2
  if isExit && decide (start < 0) then
    ({ bl with offset := filesize }, fs, filesize, none)
  else
    let file := if isExit then (fs.read bl.filename).getD [] else []
    let bl1 := { bl with start := wrap64 (bl.start + start), offset := start }
    let d := bl1.download server file
    (d.1, fs.write bl.filename d.2.1, filesize, d.2.2)

/-! ## Rounds, merge and the scheduling loop -/

/-- The state `FileDownload.download` works on: the descriptor, the destination file and
the block files. -/
structure World where
  fd : FileDownload
  dest : List Byte
  files : BlockFS
  deriving DecidableEq, Repr

/-- The goroutines of one round (`block.startDownload` for each block, then `wg.Wait()`).
Each block touches only its own file, so they are run in block order; an error is
recorded in `fd.err`, a panic ends the process. -/
def runBlocks (server : Server) : List BlockFile → BlockFS → Option DownloadErr →
    Except DownloadErr (List BlockFile × BlockFS × Option DownloadErr)
  | [], fs, err => .ok ([], fs, err)
  | bl :: rest, fs, err =>
    let r := bl.startDownload server fs
    if r.2.2.2 = some .panicked then .error .panicked
    else
      let err1 := if r.2.2.2 = none then err else r.2.2.2
      match runBlocks server rest r.2.1 err1 with
      | .error e => .error e
      | .ok (bls, fs1, err2) => .ok (r.1 :: bls, fs1, err2)

/-- The copy loop of the closure `fb`: `fscr.ReadAt(buf, offset)` with a 4096 byte buffer,
then `fdst.WriteAt(buf[:n], fd.offset)`; `io.EOF` (a short read) ends the copy.  Returns
the destination and `fd.offset`, which is not wrapped for the reason given at
`BlockFile.readStep`. -/
def fbLoop : Nat → List Byte → Nat → List Byte → Int → Except DownloadErr (List Byte × Int)
  | 0, _, _, _, _ => .error .outOfFuel
  | fuel + 1, fscr, offset, fdst, fdOffset =>
    let buf := (fscr.drop offset).take 4096
    match writeAt fdst buf fdOffset with
    | .error e => .error e
    | .ok fdst1 =>
      let fdOffset1 := fdOffset + buf.length
      if buf.length < 4096 then .ok (fdst1, fdOffset1)
      else fbLoop fuel fscr (offset + buf.length) fdst1 fdOffset1

/-- The closure `fb` of `FileDownload.download`. -/
def fb (fdst fscr : List Byte) (fdOffset : Int) : Except DownloadErr (List Byte × Int) :=
  fbLoop (fscr.length / 4096 + 1) fscr 0 fdst fdOffset

/-- The merge loop of `FileDownload.download` (`for _, item := range fd.blocks` after
`wg.Wait()`): open the block file, copy it with `fb`, remove it. -/
def mergeBlocks : List BlockFile → List Byte → Int → BlockFS →
    Except DownloadErr (List Byte × Int × BlockFS)
  | [], dest, fdOffset, fs => .ok (dest, fdOffset, fs)
  | item :: rest, dest, fdOffset, fs =>
    match fs.read item.filename with
    | none => .error .openFailed
    | some fsrc =>
      match fb dest fsrc fdOffset with
      | .error e => .error e
      | .ok (dest1, fdOffset1) => mergeBlocks rest dest1 fdOffset1 (fs.remove item.filename)

/-- One round of `FileDownload.download`: plan the blocks, run them, merge them.  Returns
the world after the round with `begin` and `flag`. -/
def downloadRound (server : Server) (w : World) (begin : Int) (flag : Bool) :
    Except DownloadErr (World × Int × Bool) :=
  let p := planBlocks 32 w.fd.size w.fd.blockSize begin flag w.fd.blocks
  match runBlocks server p.1 w.files w.fd.err with
  | .error e => .error e
  | .ok (bls, fs1, err1) =>
    match mergeBlocks bls w.dest w.fd.offset fs1 with
    | .error e => .error e
    | .ok (dest1, fdOffset1, fs2) =>
      .ok ({ fd := { w.fd with err := err1, blocks := [], offset := fdOffset1 },
             dest := dest1, files := fs2 }, p.2.1, p.2.2)

/-- The scheduling loop `for begin < fd.size && !flag` of `FileDownload.download`, with
`fuel` rounds at most. -/
def downloadLoop (server : Server) : Nat → World → Int → Bool → Except DownloadErr World
  | 0, w, begin, flag =>
    if begin < w.fd.size ∧ flag = false then .error .outOfFuel else .ok w
  | fuel + 1, w, begin, flag =>
    if begin < w.fd.size ∧ flag = false then
      match downloadRound server w begin flag with
      | .error e => .error e
      | .ok (w1, begin1, flag1) => downloadLoop server fuel w1 begin1 flag1
    else .ok w

/-- The final check of `FileDownload.download` (`info.Size() != fd.size`). -/
def checkSize (w : World) : Except DownloadErr World :=
  if (w.dest.length : Int) ≠ w.fd.size then
    .error (.sizeMismatch (w.dest.length : Int) w.fd.size)
  else .ok w

/-- The state at the start of the scheduling loop: the destination is opened with
`O_CREATE` (an absent one becomes empty) and `fd.offset` is its size. -/
def FileDownload.initWorld (fd : FileDownload) (dest : Option (List Byte)) (fs : BlockFS) :
    World :=
  { fd := { fd with offset := ((dest.getD []).length : Int) }, dest := dest.getD [],
    files := fs }

/-- The number of rounds granted to the scheduling loop: one per byte still missing, and
one more.  It is enough whenever `begin` advances in each round. -/
def FileDownload.loopFuel (fd : FileDownload) (dest : Option (List Byte)) : Nat :=
  (fd.size - ((dest.getD []).length : Int)).toNat + 1

/-- Method `FileDownload.download`.  `dest` is the destination on disk (`none` when
absent), `fs` the block files on disk. -/
def FileDownload.download (fd : FileDownload) (server : Server) (dest : Option (List Byte))
    (fs : BlockFS) : Except DownloadErr World :=
  match downloadLoop server (fd.loopFuel dest) (fd.initWorld dest fs)
      (fd.initWorld dest fs).fd.offset false with
  | .error e => .error e
  | .ok w1 => checkSize w1

/-! ## Servers used in the examples -/

/-- The reads of a body holding `data`: full buffers of 4096 bytes, the last read carrying
`io.EOF`. -/
def bodyChunks : Nat → List Byte → List Chunk
  | 0, _ => []
  | fuel + 1, data =>
    if data.length ≤ 4096 then [{ data := data, err := some .eof }]
    else { data := data.take 4096, err := none } :: bodyChunks fuel (data.drop 4096)

/-- A server that answers `Range: bytes=s-e` with exactly the bytes `s..e` of `source`
that exist. -/
def exactServer (source : List Byte) : Server := fun s e =>
  .body (bodyChunks (source.length + 1) ((source.drop s.toNat).take (e + 1 - s).toNat))

/-- A server that answers the request starting at `bad` with `resp` and every other
request like `exactServer`. -/
def brokenServer (source : List Byte) (bad : Int) (resp : Response) : Server := fun s e =>
  if s = bad then resp else exactServer source s e


/-! ## Definitions used to state the properties -/

/-- The block planned for the range `[begin, e]`. -/
def mkBlock (begin e : Int) : BlockFile :=
  { filename := (begin, e), start := begin, end_ := e, offset := 0 }

/-- The relation between consecutive blocks of a round: the later one starts right after
the end of the earlier one. -/
def Adjacent (a b : BlockFile) : Prop := b.start = a.end_ + 1

/-- The remaining byte count in the words of the specification: the total size, minus the
existing destination length when the destination is partially present. -/
def remainingBytes (size : Int) (dest : Option Nat) : Int :=
  match dest with
  | none => size
  | some n => if 0 < n ∧ (n : Int) < size then size - n else size

/-- The layout a planned round is expected to have for total size `size`: it is not empty,
its first block starts at the round's `begin`, consecutive blocks are adjacent, and every
block satisfies `start ≤ end ≤ size`. -/
def RoundOk (size : Int) (r : Round) : Prop :=
  r.blocks ≠ [] ∧ (∀ b ∈ r.blocks.head?, b.start = r.begin) ∧
    List.Chain' Adjacent r.blocks ∧ ∀ b ∈ r.blocks, b.start ≤ b.end_ ∧ b.end_ ≤ size

/-- The sum, over all blocks of all planned rounds, of the on-wire byte count. -/
def plannedWireBytes (fuel : Nat) (size blockSize begin : Int) : Int :=
  ((planRounds fuel size blockSize begin false).map
    (fun r => (r.blocks.map BlockFile.wireCount).sum)).sum

/-! ## The block planner -/

theorem wrap64_eq (x : Int) (h1 : -9223372036854775808 ≤ x) (h2 : x ≤ 9223372036854775807) :
    wrap64 x = x := by
  unfold wrap64
  omega

theorem planBlocks_acc (size bs : Int) : ∀ (n : Nat) (begin : Int) (flag : Bool)
    (acc : List BlockFile),
    planBlocks n size bs begin flag acc =
      (acc ++ (planBlocks n size bs begin flag []).1,
        (planBlocks n size bs begin flag []).2.1, (planBlocks n size bs begin flag []).2.2) := by
  intro n
  induction n with
  | zero => intro begin flag acc; simp [planBlocks]
  | succ n ih =>
    intro begin flag acc
    simp only [planBlocks]
    by_cases h1 : begin > size
    · simp [h1]
    · simp only [h1, if_false, List.nil_append]
      by_cases h2 : wrap64 (begin + bs) > size
      · simp [h2]
      · simp only [h2, if_false]
        cases flag with
        | true => simp
        | false =>
          simp only [Bool.false_eq_true, if_false]
          rw [ih _ _ (acc ++ _), ih _ _ [_]]
          simp

theorem planBlocks_zero (size bs begin : Int) :
    planBlocks 0 size bs begin false [] = ([], begin, false) := rfl

theorem planBlocks_gt (n : Nat) (size bs begin : Int) (h : begin > size) :
    planBlocks n size bs begin false [] = ([], begin, false) := by
  cases n with
  | zero => rfl
  | succ n => simp [planBlocks, h]

theorem planBlocks_clamp (n : Nat) (size bs begin : Int) (h : begin ≤ size)
    (h2 : wrap64 (begin + bs) > size) :
    planBlocks (n + 1) size bs begin false [] = ([mkBlock begin size], begin, true) := by
  have h1 : ¬ begin > size := by omega
  simp [planBlocks, h1, h2, mkBlock]

theorem planBlocks_step (n : Nat) (size bs begin : Int) (h : begin ≤ size)
    (h2 : ¬ wrap64 (begin + bs) > size) :
    planBlocks (n + 1) size bs begin false [] =
      (mkBlock begin (wrap64 (begin + bs)) ::
          (planBlocks n size bs (wrap64 (1 + wrap64 (begin + bs))) false []).1,
        (planBlocks n size bs (wrap64 (1 + wrap64 (begin + bs))) false []).2.1,
        (planBlocks n size bs (wrap64 (1 + wrap64 (begin + bs))) false []).2.2) := by
  have h1 : ¬ begin > size := by omega
  simp only [planBlocks, h1, h2, if_false, List.nil_append, Bool.false_eq_true]
  rw [planBlocks_acc]
  simp [mkBlock]

theorem planBlocks_spec (size bs : Int) (hbs : 0 ≤ bs) (hr1 : size + bs ≤ maxInt64)
    (hr2 : size < maxInt64) : ∀ (n : Nat) (begin : Int), 0 ≤ begin → begin ≤ size + 1 →
    (∀ b ∈ (planBlocks n size bs begin false []).1,
        begin ≤ b.start ∧ b.start ≤ b.end_ ∧ b.end_ ≤ size) ∧
    List.Chain' Adjacent (planBlocks n size bs begin false []).1 ∧
    (∀ b ∈ (planBlocks n size bs begin false []).1.head?, b.start = begin) ∧
    (0 < n → begin ≤ size → (planBlocks n size bs begin false []).1 ≠ []) ∧
    begin ≤ (planBlocks n size bs begin false []).2.1 ∧
    (planBlocks n size bs begin false []).2.1 ≤ size + 1 ∧
    (planBlocks n size bs begin false []).1.length ≤ n ∧
    ((planBlocks n size bs begin false []).1 ≠ [] →
      begin < (planBlocks n size bs begin false []).2.1 ∨
        (planBlocks n size bs begin false []).2.2 = true) ∧
    (((planBlocks n size bs begin false []).1.map BlockFile.wireCount).sum =
      (if (planBlocks n size bs begin false []).2.2 = true then size + 1
        else (planBlocks n size bs begin false []).2.1) - begin) := by
  unfold maxInt64 at hr1 hr2
  intro n
  induction n with
  | zero =>
    intro begin h0 h1
    simp [planBlocks_zero]
    omega
  | succ n ih =>
    intro begin h0 h1
    by_cases hle : begin ≤ size
    · have hw : wrap64 (begin + bs) = begin + bs := wrap64_eq _ (by omega) (by omega)
      by_cases hc : wrap64 (begin + bs) > size
      · rw [planBlocks_clamp n size bs begin hle hc]
        simp [mkBlock, BlockFile.wireCount]
        omega
      · rw [planBlocks_step n size bs begin hle hc]
        rw [hw] at hc ⊢
        have hw2 : wrap64 (1 + (begin + bs)) = begin + bs + 1 := by
          rw [wrap64_eq _ (by omega) (by omega)]; omega
        rw [hw2]
        obtain ⟨i1, i2, i3, i4, i5, i6, i7, i8, i9⟩ := ih (begin + bs + 1) (by omega) (by omega)
        refine ⟨?_, ?_, ?_, ?_, ?_, ?_, ?_, ?_, ?_⟩
        · intro b hb
          rcases List.mem_cons.mp hb with rfl | hb
          · simp [mkBlock]; omega
          · have := i1 b hb
            omega
        · rw [List.chain'_cons']
          refine ⟨?_, i2⟩
          intro y hy
          have := i3 y hy
          simp [Adjacent, mkBlock, this]
        · simp [mkBlock]
        · simp
        · show begin ≤ (planBlocks n size bs (begin + bs + 1) false []).2.1
          omega
        · exact i6
        · simp only [List.length_cons]; omega
        · intro _
          left
          show begin < (planBlocks n size bs (begin + bs + 1) false []).2.1
          omega
        · simp only [List.map_cons, List.sum_cons, i9]
          simp [mkBlock, BlockFile.wireCount]
          omega
    · have hgt : begin > size := by omega
      rw [planBlocks_gt _ size bs begin hgt]
      simp
      omega

theorem planBlocks_count (size bs : Int) (hbs : 0 ≤ bs) (hr1 : size + bs ≤ maxInt64)
    (hr2 : size < maxInt64) : ∀ (n m : Nat) (begin : Int), 0 ≤ begin → begin ≤ size + 1 →
    size - begin < (m : Int) * (bs + 1) → m ≤ n →
    (planBlocks n size bs begin false []).1.length ≤ m ∧
    ((planBlocks n size bs begin false []).2.2 = true ∨
      (planBlocks n size bs begin false []).2.1 > size) := by
  unfold maxInt64 at hr1 hr2
  intro n
  induction n with
  | zero =>
    intro m begin h0 h1 hm hmn
    have : m = 0 := by omega
    subst this
    simp [planBlocks_zero]
    omega
  | succ n ih =>
    intro m begin h0 h1 hm hmn
    by_cases hle : begin ≤ size
    · have hw : wrap64 (begin + bs) = begin + bs := wrap64_eq _ (by omega) (by omega)
      have hmpos : 0 < m := by
        rcases Nat.eq_zero_or_pos m with h | h
        · subst h; simp at hm; omega
        · exact h
      by_cases hc : wrap64 (begin + bs) > size
      · rw [planBlocks_clamp n size bs begin hle hc]
        simp
        omega
      · rw [planBlocks_step n size bs begin hle hc]
        rw [hw] at hc ⊢
        have hw2 : wrap64 (1 + (begin + bs)) = begin + bs + 1 := by
          rw [wrap64_eq _ (by omega) (by omega)]; omega
        rw [hw2]
        obtain ⟨m, rfl⟩ : ∃ k, m = k + 1 := ⟨m - 1, by omega⟩
        have hm2 : size - (begin + bs + 1) < (m : Int) * (bs + 1) := by
          push_cast at hm
          nlinarith
        obtain ⟨j1, j2⟩ := ih m (begin + bs + 1) (by omega) (by omega) hm2 (by omega)
        refine ⟨?_, j2⟩
        simp only [List.length_cons]
        omega
    · have hgt : begin > size := by omega
      rw [planBlocks_gt _ size bs begin hgt]
      simp
      omega

theorem planRounds_forall (size bs : Int) (P : Round → Prop) (Inv : Int → Prop)
    (hstep : ∀ begin, Inv begin → begin < size →
      P { begin := begin, blocks := (planBlocks 32 size bs begin false []).1 } ∧
        Inv (planBlocks 32 size bs begin false []).2.1) :
    ∀ (fuel : Nat) (begin : Int) (flag : Bool), Inv begin →
      ∀ r ∈ planRounds fuel size bs begin flag, P r := by
  intro fuel
  induction fuel with
  | zero => intro begin flag _ r hr; simp [planRounds] at hr
  | succ fuel ih =>
    intro begin flag hinv r hr
    unfold planRounds at hr
    by_cases hc : begin < size ∧ flag = false
    · obtain ⟨hlt, hf⟩ := hc
      subst hf
      simp only [hlt, and_self, if_true] at hr
      obtain ⟨hp, hi⟩ := hstep begin hinv hlt
      rcases List.mem_cons.mp hr with rfl | hr
      · exact hp
      · exact ih _ _ hi r hr
    · simp [hc] at hr

theorem tier_cases (L : Int) :
    (L ≤ 10485760 →
      (if L ≤ 1024 * 1024 * 10 then ((8 : Int), L.tdiv 8)
        else if L > 1024 * 1024 * 10 ∧ L ≤ 1024 * 1024 * 100 then (16, L.tdiv 8)
        else if L > 1024 * 1024 * 100 ∧ L ≤ 1024 * 1024 * 1024 then (32, L.tdiv 16)
        else (64, 1024 * 1024 * 64)) = (8, L.tdiv 8)) ∧
    (10485760 < L → L ≤ 104857600 →
      (if L ≤ 1024 * 1024 * 10 then ((8 : Int), L.tdiv 8)
        else if L > 1024 * 1024 * 10 ∧ L ≤ 1024 * 1024 * 100 then (16, L.tdiv 8)
        else if L > 1024 * 1024 * 100 ∧ L ≤ 1024 * 1024 * 1024 then (32, L.tdiv 16)
        else (64, 1024 * 1024 * 64)) = (16, L.tdiv 8)) ∧
    (104857600 < L → L ≤ 1073741824 →
      (if L ≤ 1024 * 1024 * 10 then ((8 : Int), L.tdiv 8)
        else if L > 1024 * 1024 * 10 ∧ L ≤ 1024 * 1024 * 100 then (16, L.tdiv 8)
        else if L > 1024 * 1024 * 100 ∧ L ≤ 1024 * 1024 * 1024 then (32, L.tdiv 16)
        else (64, 1024 * 1024 * 64)) = (32, L.tdiv 16)) ∧
    (1073741824 < L →
      (if L ≤ 1024 * 1024 * 10 then ((8 : Int), L.tdiv 8)
        else if L > 1024 * 1024 * 10 ∧ L ≤ 1024 * 1024 * 100 then (16, L.tdiv 8)
        else if L > 1024 * 1024 * 100 ∧ L ≤ 1024 * 1024 * 1024 then (32, L.tdiv 16)
        else (64, 1024 * 1024 * 64)) = (64, 67108864)) := by
  refine ⟨?_, ?_, ?_, ?_⟩
  · intro h
    rw [if_pos (by omega)]
  · intro h1 h2
    rw [if_neg (by omega), if_pos (by constructor <;> omega)]
  · intro h1 h2
    rw [if_neg (by omega), if_neg (by omega), if_pos (by constructor <;> omega)]
  · intro h1
    rw [if_neg (by omega), if_neg (by omega), if_neg (by omega)]
    norm_num

theorem NewFileDownload_ok (resp : ProbeResponse) (dest : Option Nat) (fd : FileDownload)
    (h : NewFileDownload (some resp) dest = .ok fd) :
    fd.size = resp.contentLength ∧
    (∀ n, dest = some n → (n : Int) < fd.size) ∧
    (remainingBytes resp.contentLength dest ≤ 10485760 →
      fd.worknum = 8 ∧ fd.blockSize = (remainingBytes resp.contentLength dest).tdiv 8) ∧
    (10485760 < remainingBytes resp.contentLength dest →
      remainingBytes resp.contentLength dest ≤ 104857600 →
      fd.worknum = 16 ∧ fd.blockSize = (remainingBytes resp.contentLength dest).tdiv 8) ∧
    (104857600 < remainingBytes resp.contentLength dest →
      remainingBytes resp.contentLength dest ≤ 1073741824 →
      fd.worknum = 32 ∧ fd.blockSize = (remainingBytes resp.contentLength dest).tdiv 16) ∧
    (1073741824 < remainingBytes resp.contentLength dest →
      fd.worknum = 64 ∧ fd.blockSize = 67108864) := by
  obtain ⟨ar, size⟩ := resp
  cases ar with
  | false => simp [NewFileDownload] at h
  | true =>
    have key : ∀ L : Int, remainingBytes size dest = L →
        (({ worknum := (if L ≤ 1024 * 1024 * 10 then ((8 : Int), L.tdiv 8)
              else if L > 1024 * 1024 * 10 ∧ L ≤ 1024 * 1024 * 100 then (16, L.tdiv 8)
              else if L > 1024 * 1024 * 100 ∧ L ≤ 1024 * 1024 * 1024 then (32, L.tdiv 16)
              else (64, 1024 * 1024 * 64)).1,
            size := size,
            blockSize := (if L ≤ 1024 * 1024 * 10 then ((8 : Int), L.tdiv 8)
              else if L > 1024 * 1024 * 10 ∧ L ≤ 1024 * 1024 * 100 then (16, L.tdiv 8)
              else if L > 1024 * 1024 * 100 ∧ L ≤ 1024 * 1024 * 1024 then (32, L.tdiv 16)
              else (64, 1024 * 1024 * 64)).2,
            err := none, blocks := [], offset := 0 } : FileDownload) = fd) →
        (remainingBytes size dest ≤ 10485760 →
          fd.worknum = 8 ∧ fd.blockSize = (remainingBytes size dest).tdiv 8) ∧
        (10485760 < remainingBytes size dest → remainingBytes size dest ≤ 104857600 →
          fd.worknum = 16 ∧ fd.blockSize = (remainingBytes size dest).tdiv 8) ∧
        (104857600 < remainingBytes size dest → remainingBytes size dest ≤ 1073741824 →
          fd.worknum = 32 ∧ fd.blockSize = (remainingBytes size dest).tdiv 16) ∧
        (1073741824 < remainingBytes size dest →
          fd.worknum = 64 ∧ fd.blockSize = 67108864) := by
      intro L hL hfd
      rw [hL]
      subst hfd
      obtain ⟨t1, t2, t3, t4⟩ := tier_cases L
      refine ⟨?_, ?_, ?_, ?_⟩
      · intro h; rw [t1 h]; exact ⟨rfl, rfl⟩
      · intro h1 h2; rw [t2 h1 h2]; exact ⟨rfl, rfl⟩
      · intro h1 h2; rw [t3 h1 h2]; exact ⟨rfl, rfl⟩
      · intro h1; rw [t4 h1]; exact ⟨rfl, rfl⟩
    cases dest with
    | none =>
      simp only [NewFileDownload, isFileExit] at h
      rw [if_neg (by decide)] at h
      simp only [Bool.false_eq_true, if_false, Bool.false_and, Except.ok.injEq] at h
      refine ⟨by rw [← h], by simp, key size rfl h⟩
    | some n =>
      simp only [NewFileDownload, isFileExit] at h
      by_cases hn : (n : Int) ≥ size
      · simp [hn] at h
      · rw [if_neg (by decide)] at h
        simp only [hn, if_false, Bool.false_eq_true, Bool.true_and, decide_eq_true_eq] at h
        have hneg : ¬ ((n : Int) < 0) := by omega
        simp only [hneg, if_false, Except.ok.injEq] at h
        have hL : remainingBytes size (some n) = if (n : Int) > 0 then size - n else size := by
          simp only [remainingBytes]
          by_cases h0 : 0 < n
          · have : (n : Int) > 0 := by omega
            have h3 : (n : Int) < size := by omega
            simp [h0, this, h3]
          · have : ¬ (n : Int) > 0 := by omega
            simp [h0, this]
        refine ⟨by rw [← h], ?_, key _ hL h⟩
        intro m hm
        cases hm
        rw [← h]
        show (n : Int) < size
        omega


/-! ## Claims about the tier table and the planner -/

/-- C6: whenever `NewFileDownload` succeeds, with `r` the remaining byte count (the total
size, minus the existing destination length when the destination is partially present),
the chosen `(worknum, blockSize)` is `(8, r/8)` for `r ≤ 10 MiB`, `(16, r/8)` for
`10 MiB < r ≤ 100 MiB`, `(32, r/16)` for `100 MiB < r ≤ 1 GiB` and `(64, 64 MiB)` for
`r > 1 GiB`, the division truncating as in Go; and with the destination absent the sizes
`10 MiB`, `10 MiB + 1`, `1 GiB`, `1 GiB + 1` give 8, 16, 32 and 64 workers, the last one
with 64 MiB blocks. -/
theorem C6_tier_table (resp : ProbeResponse) (dest : Option Nat) (fd : FileDownload)
    (h : NewFileDownload (some resp) dest = .ok fd) :
    ((remainingBytes resp.contentLength dest ≤ 10485760 →
        fd.worknum = 8 ∧ fd.blockSize = (remainingBytes resp.contentLength dest).tdiv 8) ∧
      (10485760 < remainingBytes resp.contentLength dest →
        remainingBytes resp.contentLength dest ≤ 104857600 →
        fd.worknum = 16 ∧ fd.blockSize = (remainingBytes resp.contentLength dest).tdiv 8) ∧
      (104857600 < remainingBytes resp.contentLength dest →
        remainingBytes resp.contentLength dest ≤ 1073741824 →
        fd.worknum = 32 ∧ fd.blockSize = (remainingBytes resp.contentLength dest).tdiv 16) ∧
      (1073741824 < remainingBytes resp.contentLength dest →
        fd.worknum = 64 ∧ fd.blockSize = 67108864)) ∧
    (NewFileDownload (some ⟨true, 10485760⟩) none =
        .ok ⟨8, 10485760, 1310720, none, [], 0⟩ ∧
      NewFileDownload (some ⟨true, 10485761⟩) none =
        .ok ⟨16, 10485761, 1310720, none, [], 0⟩ ∧
      NewFileDownload (some ⟨true, 1073741824⟩) none =
        .ok ⟨32, 1073741824, 67108864, none, [], 0⟩ ∧
      NewFileDownload (some ⟨true, 1073741825⟩) none =
        .ok ⟨64, 1073741825, 67108864, none, [], 0⟩) := by
  obtain ⟨_, _, t⟩ := NewFileDownload_ok resp dest fd h
  exact ⟨t, rfl, rfl, rfl, rfl⟩

/-- Witness for C6: a 300 MiB source whose destination already holds 100 MiB leaves
200 MiB, which selects 32 workers and blocks of 200 MiB / 16. -/
theorem C6_tier_table_witness :
    NewFileDownload (some ⟨true, 314572800⟩) (some 104857600) =
        .ok ⟨32, 314572800, 13107200, none, [], 0⟩ ∧
      remainingBytes 314572800 (some 104857600) = 209715200 ∧
      ((⟨32, 314572800, 13107200, none, [], 0⟩ : FileDownload).worknum = 32 ∧
        (⟨32, 314572800, 13107200, none, [], 0⟩ : FileDownload).blockSize =
          (remainingBytes 314572800 (some 104857600)).tdiv 16) :=
  ⟨rfl, by decide,
    (C6_tier_table ⟨true, 314572800⟩ (some 104857600)
      ⟨32, 314572800, 13107200, none, [], 0⟩ rfl).1.2.2.1 (by decide) (by decide)⟩


theorem planRounds_ge (size bs : Int) (fuel : Nat) (begin : Int) (flag : Bool)
    (h : ¬ begin < size) : planRounds fuel size bs begin flag = [] := by
  cases fuel with
  | zero => rfl
  | succ n => simp [planRounds, h]

/-- C7 (as stated, refuted): for a 100 MiB source with the destination absent the chosen
block size is not 6553600 bytes. -/
theorem C7_counterexample :
    ¬ ∃ fd, NewFileDownload (some ⟨true, 104857600⟩) none = .ok fd ∧ fd.worknum = 16 ∧
      fd.blockSize = 6553600 := by
  rintro ⟨fd, h, _, hb⟩
  have h2 : NewFileDownload (some ⟨true, 104857600⟩) none =
      .ok ⟨16, 104857600, 13107200, none, [], 0⟩ := rfl
  rw [h2] at h
  cases h
  revert hb
  decide

/-- C7 (amended): for a 100 MiB source (104857600 bytes) with the destination absent,
`NewFileDownload` selects 16 workers and a block size of 12.5 MiB (13107200 bytes), and
`FileDownload.download` plans all blocks, eight of them ending at the total size, in a
single round. -/
theorem C7_scenario_100MiB :
    NewFileDownload (some ⟨true, 104857600⟩) none =
        .ok ⟨16, 104857600, 13107200, none, [], 0⟩ ∧
      ∀ fuel : Nat, planRounds (fuel + 1) 104857600 13107200 0 false =
        [⟨0, [mkBlock 0 13107200, mkBlock 13107201 26214401, mkBlock 26214402 39321602,
          mkBlock 39321603 52428803, mkBlock 52428804 65536004, mkBlock 65536005 78643205,
          mkBlock 78643206 91750406, mkBlock 91750407 104857600]⟩] := by
  refine ⟨rfl, ?_⟩
  intro fuel
  have hp : planBlocks 32 104857600 13107200 0 false [] =
      ([mkBlock 0 13107200, mkBlock 13107201 26214401, mkBlock 26214402 39321602,
          mkBlock 39321603 52428803, mkBlock 52428804 65536004, mkBlock 65536005 78643205,
          mkBlock 78643206 91750406, mkBlock 91750407 104857600], 91750407, true) := by
    decide
  have h1 : planRounds (fuel + 1) 104857600 13107200 0 false =
      ⟨0, (planBlocks 32 104857600 13107200 0 false []).1⟩ ::
        planRounds fuel 104857600 13107200 (planBlocks 32 104857600 13107200 0 false []).2.1
          (planBlocks 32 104857600 13107200 0 false []).2.2 := by
    simp [planRounds]
  rw [h1, hp]
  cases fuel with
  | zero => rfl
  | succ n => simp [planRounds]

/-- C4 (evaluation at the failing input): for a source of 8 bytes with the destination
absent, `NewFileDownload` chooses block size 1, the planned ranges are `[0,1]`, `[2,3]`,
`[4,5]`, `[6,7]`, `[8,8]`, and their on-wire byte counts plus the resumed prefix `0` sum
to 9, not to the total size 8. -/
theorem C4_wire_bytes_off_by_one :
    NewFileDownload (some ⟨true, 8⟩) none = .ok ⟨8, 8, 1, none, [], 0⟩ ∧
      planRounds 9 8 1 0 false =
        [⟨0, [mkBlock 0 1, mkBlock 2 3, mkBlock 4 5, mkBlock 6 7, mkBlock 8 8]⟩] ∧
      plannedWireBytes 9 8 1 0 + 0 = 9 ∧ plannedWireBytes 9 8 1 0 + 0 ≠ 8 := by
  refine ⟨rfl, by decide, by decide, by decide⟩

/-- C5 (as stated, refuted): with total size 10, starting offset 1 and block size
`2^63 - 1`, the sum `begin + blockSize` overflows `int64` and the first planned block is
`[1, -2^63]`, so the round does not satisfy `start ≤ end`. -/
theorem C5_counterexample :
    (0 : Int) ≤ 9223372036854775807 ∧ (1 : Int) < 10 ∧
      ¬ ∀ r ∈ planRounds 1 10 9223372036854775807 1 false, RoundOk 10 r := by
  refine ⟨by decide, by decide, ?_⟩
  intro h
  have h1 := h ⟨1, (planBlocks 32 10 9223372036854775807 1 false []).1⟩
    (by simp [planRounds])
  have h2 := h1.2.2.2 (mkBlock 1 (-9223372036854775808)) (by decide)
  revert h2
  decide


/-- C5 (amended): for every total size, every block size `≥ 0` and every starting offset
`< totalSize`, provided `totalSize + blockSize` and `totalSize + 1` stay within `int64`
(so that `begin + blockSize` and `1 + end` do not wrap around), the planner does plan a
round, and each round it plans is a non-empty block list whose first block starts at the
round's `begin`, in which each later block starts at the previous block's `end + 1`, and
in which every block satisfies `start ≤ end ≤ totalSize`. -/
theorem C5_round_layout (fuel : Nat) (size blockSize : Int) (offset : Nat)
    (hbs : 0 ≤ blockSize) (hlt : (offset : Int) < size)
    (hr1 : size + blockSize ≤ maxInt64) (hr2 : size < maxInt64) :
    (0 < fuel → planRounds fuel size blockSize offset false ≠ []) ∧
      ∀ r ∈ planRounds fuel size blockSize offset false, RoundOk size r := by
  constructor
  · intro hf
    obtain ⟨k, rfl⟩ : ∃ k, fuel = k + 1 := ⟨fuel - 1, by omega⟩
    simp [planRounds, hlt]
  · apply planRounds_forall size blockSize (RoundOk size) (fun b => 0 ≤ b)
    · intro begin hb hlt2
      obtain ⟨i1, i2, i3, i4, i5, _, _, _, _⟩ :=
        planBlocks_spec size blockSize hbs hr1 hr2 32 begin hb (by omega)
      refine ⟨⟨i4 (by decide) (by omega), i3, i2, ?_⟩, by omega⟩
      intro b hb2
      have := i1 b hb2
      exact ⟨this.2.1, this.2.2⟩
    · exact Int.natCast_nonneg offset

/-- Witness for C5: total size 8, block size 1, offset 0; the only round is
`[0,1]`, `[2,3]`, `[4,5]`, `[6,7]`, `[8,8]`. -/
theorem C5_round_layout_witness :
    (planRounds 9 8 1 ((0 : Nat) : Int) false ≠ []) ∧
      (⟨0, [mkBlock 0 1, mkBlock 2 3, mkBlock 4 5, mkBlock 6 7, mkBlock 8 8]⟩ : Round) ∈
        planRounds 9 8 1 ((0 : Nat) : Int) false ∧
      RoundOk 8 ⟨0, [mkBlock 0 1, mkBlock 2 3, mkBlock 4 5, mkBlock 6 7, mkBlock 8 8]⟩ :=
  ⟨(C5_round_layout 9 8 1 0 (by decide) (by decide) (by decide) (by decide)).1 (by decide),
    by decide,
    (C5_round_layout 9 8 1 0 (by decide) (by decide) (by decide) (by decide)).2 _
      (by decide)⟩

/-- C8 (as stated, refuted): for total size `2^63 - 1` and an existing destination of
`2^63 - 2` bytes, `NewFileDownload` chooses 8 workers and block size 0; `1 + end`
overflows `int64` after the second block, and the round holds 32 blocks. -/
theorem C8_counterexample :
    (0 : Int) ≤ 9223372036854775807 ∧
      ((9223372036854775806 : Nat) : Int) < 9223372036854775807 ∧
      NewFileDownload (some ⟨true, 9223372036854775807⟩) (some 9223372036854775806) =
        .ok ⟨8, 9223372036854775807, 0, none, [], 0⟩ ∧
      ∃ r ∈ planRounds 1 9223372036854775807 0 ((9223372036854775806 : Nat) : Int) false,
        ¬ ((r.blocks.length : Int) ≤ 8) := by
  refine ⟨by decide, by decide, rfl, ?_⟩
  decide

theorem planRounds_length_le (size bs offset : Int) (m : Nat) (h0 : 0 ≤ offset)
    (hbs : 0 ≤ bs) (hr1 : size + bs ≤ maxInt64) (hr2 : size < maxInt64) (hm : m ≤ 32)
    (hcount : size - offset < (m : Int) * (bs + 1)) (fuel : Nat) :
    ∀ r ∈ planRounds fuel size bs offset false, r.blocks.length ≤ m := by
  apply planRounds_forall size bs (fun r => r.blocks.length ≤ m) (fun b => offset ≤ b)
  · intro begin hb hlt
    obtain ⟨_, _, _, _, i5, _, _, _, _⟩ :=
      planBlocks_spec size bs hbs hr1 hr2 32 begin (by omega) (by omega)
    have hc : size - begin < (m : Int) * (bs + 1) := by omega
    obtain ⟨j1, _⟩ :=
      planBlocks_count size bs hbs hr1 hr2 32 m begin (by omega) (by omega) hc hm
    exact ⟨j1, by omega⟩
  · exact le_refl _

theorem planRounds_length_le_32 (size bs offset : Int) (h0 : 0 ≤ offset)
    (hbs : 0 ≤ bs) (hr1 : size + bs ≤ maxInt64) (hr2 : size < maxInt64) (fuel : Nat) :
    ∀ r ∈ planRounds fuel size bs offset false, r.blocks.length ≤ 32 := by
  apply planRounds_forall size bs (fun r => r.blocks.length ≤ 32) (fun b => 0 ≤ b)
  · intro begin hb hlt
    obtain ⟨_, _, _, _, i5, _, i7, _, _⟩ :=
      planBlocks_spec size bs hbs hr1 hr2 32 begin hb (by omega)
    exact ⟨i7, by omega⟩
  · exact h0

/-- C8 (amended): whenever `NewFileDownload` succeeds (so the existing destination length
is smaller than the total size) and `totalSize + blockSize` and `totalSize + 1` stay
within `int64`, the number of blocks that `FileDownload.download` places in any single
round is at most `worknum`. -/
theorem C8_round_size_le_worknum (fuel : Nat) (resp : ProbeResponse) (dest : Option Nat)
    (fd : FileDownload) (h : NewFileDownload (some resp) dest = .ok fd)
    (hr1 : fd.size + fd.blockSize ≤ maxInt64) (hr2 : fd.size < maxInt64) :
    ∀ r ∈ planRounds fuel fd.size fd.blockSize ((dest.getD 0 : Nat) : Int) false,
      (r.blocks.length : Int) ≤ fd.worknum := by
  obtain ⟨hs, hd, t1, t2, t3, t4⟩ := NewFileDownload_ok resp dest fd h
  by_cases hpos : ((dest.getD 0 : Nat) : Int) < fd.size
  · have hL : remainingBytes resp.contentLength dest = fd.size - ((dest.getD 0 : Nat) : Int) := by
      rw [← hs]
      cases dest with
      | none => simp [remainingBytes]
      | some n =>
        simp only [Option.getD_some] at hpos
        simp only [remainingBytes, Option.getD_some]
        by_cases h0 : 0 < n
        · simp [h0, hpos]
        · have : n = 0 := by omega
          subst this
          simp
    rw [hL] at t1 t2 t3 t4
    have h0 : (0 : Int) ≤ ((dest.getD 0 : Nat) : Int) := Int.natCast_nonneg _
    generalize ((dest.getD 0 : Nat) : Int) = offset at hpos t1 t2 t3 t4 h0 ⊢
    have hLpos : 0 < fd.size - offset := by omega
    have e8 : (fd.size - offset).tdiv 8 = (fd.size - offset) / 8 :=
      Int.tdiv_eq_ediv (by omega) (by decide)
    have e16 : (fd.size - offset).tdiv 16 = (fd.size - offset) / 16 :=
      Int.tdiv_eq_ediv (by omega) (by decide)
    rw [e8] at t1 t2
    rw [e16] at t3
    intro r hr
    by_cases c1 : fd.size - offset ≤ 10485760
    · obtain ⟨hw, hb⟩ := t1 c1
      have := planRounds_length_le fd.size fd.blockSize offset 8 h0 (by omega) hr1 hr2
        (by decide) (by push_cast; omega) fuel r hr
      omega
    · by_cases c2 : fd.size - offset ≤ 104857600
      · obtain ⟨hw, hb⟩ := t2 (by omega) c2
        have := planRounds_length_le fd.size fd.blockSize offset 8 h0 (by omega) hr1 hr2
          (by decide) (by push_cast; omega) fuel r hr
        omega
      · by_cases c3 : fd.size - offset ≤ 1073741824
        · obtain ⟨hw, hb⟩ := t3 (by omega) c3
          have := planRounds_length_le fd.size fd.blockSize offset 16 h0 (by omega) hr1 hr2
            (by decide) (by push_cast; omega) fuel r hr
          omega
        · obtain ⟨hw, hb⟩ := t4 (by omega)
          have := planRounds_length_le_32 fd.size fd.blockSize offset h0 (by omega) hr1 hr2
            fuel r hr
          omega
  · intro r hr
    rw [planRounds_ge _ _ _ _ _ hpos] at hr
    simp at hr

/-- Witness for C8: a 20 byte source with the destination absent gets 8 workers and
block size 2, and its only round holds 7 blocks. -/
theorem C8_round_size_le_worknum_witness :
    NewFileDownload (some ⟨true, 20⟩) none = .ok ⟨8, 20, 2, none, [], 0⟩ ∧
      (⟨0, [mkBlock 0 2, mkBlock 3 5, mkBlock 6 8, mkBlock 9 11, mkBlock 12 14,
          mkBlock 15 17, mkBlock 18 20]⟩ : Round) ∈
        planRounds 21 (⟨8, 20, 2, none, [], 0⟩ : FileDownload).size
          (⟨8, 20, 2, none, [], 0⟩ : FileDownload).blockSize
          (((none : Option Nat).getD 0 : Nat) : Int) false ∧
      (((⟨0, [mkBlock 0 2, mkBlock 3 5, mkBlock 6 8, mkBlock 9 11, mkBlock 12 14,
          mkBlock 15 17, mkBlock 18 20]⟩ : Round).blocks.length : Nat) : Int) ≤
        (⟨8, 20, 2, none, [], 0⟩ : FileDownload).worknum :=
  ⟨rfl, by decide,
    C8_round_size_le_worknum 21 ⟨true, 20⟩ none ⟨8, 20, 2, none, [], 0⟩ rfl (by decide)
      (by decide) _ (by decide)⟩

/-! ## The merge -/

theorem writeAt_end (dst buf : List Byte) :
    writeAt dst buf (dst.length : Int) = .ok (dst ++ buf) := by
  unfold writeAt
  have h0 : ¬ ((dst.length : Int) < 0) := by omega
  rw [if_neg h0]
  by_cases hb : buf = []
  · simp [hb]
  · rw [if_neg hb]
    simp

theorem fbLoop_ok : ∀ (fuel : Nat) (fscr : List Byte) (offset : Nat) (fdst : List Byte),
    fscr.length - offset < fuel * 4096 →
    fbLoop fuel fscr offset fdst (fdst.length : Int) =
      .ok (fdst ++ fscr.drop offset,
        ((fdst.length : Int) + ((fscr.drop offset).length : Int))) := by
  intro fuel
  induction fuel with
  | zero => intro fscr offset fdst h; omega
  | succ fuel ih =>
    intro fscr offset fdst h
    unfold fbLoop
    simp only [writeAt_end]
    by_cases hs : ((fscr.drop offset).take 4096).length < 4096
    · rw [if_pos hs]
      have hl : (fscr.drop offset).length < 4096 := by
        rw [List.length_take] at hs
        omega
      rw [List.take_of_length_le (by omega)]
    · rw [if_neg hs]
      have hl : ((fscr.drop offset).take 4096).length = 4096 := by
        have := List.length_take 4096 (fscr.drop offset)
        omega
      have hl2 : 4096 ≤ (fscr.drop offset).length := by
        rw [List.length_take] at hl
        omega
      rw [List.length_drop] at hl2
      have e := ih fscr (offset + 4096) (fdst ++ (fscr.drop offset).take 4096) (by omega)
      rw [hl]
      have e2 : ((fdst ++ (fscr.drop offset).take 4096).length : Int) =
          (fdst.length : Int) + ((4096 : Nat) : Int) := by
        rw [List.length_append, hl]
        push_cast
        rfl
      rw [e2] at e
      rw [e]
      have e3 : fscr.drop (offset + 4096) = (fscr.drop offset).drop 4096 := by
        rw [List.drop_drop]
      rw [e3, List.append_assoc, List.take_append_drop]
      congr 2
      have h5 := List.length_append ((fscr.drop offset).take 4096) ((fscr.drop offset).drop 4096)
      rw [List.take_append_drop, hl] at h5
      rw [h5]
      push_cast
      omega

theorem fb_ok (fdst fscr : List Byte) :
    fb fdst fscr (fdst.length : Int) =
      .ok (fdst ++ fscr, (fdst.length : Int) + (fscr.length : Int)) := by
  unfold fb
  rw [fbLoop_ok _ fscr 0 fdst (by omega)]
  simp


theorem BlockFS.read_remove (fs : BlockFS) (k name : Int × Int) :
    BlockFS.read (BlockFS.remove fs k) name = if k = name then none else BlockFS.read fs name := by
  induction fs with
  | nil => simp [BlockFS.remove, BlockFS.read]
  | cons p rest ih =>
    obtain ⟨k1, v⟩ := p
    by_cases h1 : k1 = k
    · subst h1
      simp only [BlockFS.remove, if_true, ih, BlockFS.read]
      by_cases h2 : k1 = name
      · simp [h2]
      · simp [h2]
    · simp only [BlockFS.remove, h1, if_false, BlockFS.read, ih]
      by_cases h2 : k = name
      · subst h2
        simp [h1]
      · simp [h2]

theorem mergeBlocks_cons_ok (item : BlockFile) (rest : List BlockFile) (dest : List Byte)
    (fs : BlockFS) (r : List Byte × Int × BlockFS)
    (h : mergeBlocks (item :: rest) dest (dest.length : Int) fs = .ok r) :
    ∃ fsrc, BlockFS.read fs item.filename = some fsrc ∧
      mergeBlocks rest (dest ++ fsrc) ((dest ++ fsrc).length : Int)
        (BlockFS.remove fs item.filename) = .ok r := by
  unfold mergeBlocks at h
  cases hr : BlockFS.read fs item.filename with
  | none => simp [hr] at h
  | some fsrc =>
    refine ⟨fsrc, rfl, ?_⟩
    simp only [hr, fb_ok] at h
    rw [List.length_append]
    push_cast
    exact h

theorem mergeBlocks_reads (blocks : List BlockFile) : ∀ (dest : List Byte) (fs : BlockFS)
    (r : List Byte × Int × BlockFS),
    mergeBlocks blocks dest (dest.length : Int) fs = .ok r →
    ∀ b ∈ blocks, BlockFS.read fs b.filename ≠ none := by
  induction blocks with
  | nil => intro dest fs r _ b hb; simp at hb
  | cons item rest ih =>
    intro dest fs r h b hb
    obtain ⟨fsrc, h1, h2⟩ := mergeBlocks_cons_ok item rest dest fs r h
    rcases List.mem_cons.mp hb with rfl | hb
    · rw [h1]; simp
    · have := ih _ _ r h2 b hb
      rw [BlockFS.read_remove] at this
      by_cases hk : item.filename = b.filename
      · simp [hk] at this
      · simpa [hk] using this

theorem mergeBlocks_spec (blocks : List BlockFile) : ∀ (dest : List Byte) (fs : BlockFS)
    (r : List Byte × Int × BlockFS),
    mergeBlocks blocks dest (dest.length : Int) fs = .ok r →
    r.1 = dest ++ (blocks.map (fun b => (BlockFS.read fs b.filename).getD [])).flatten ∧
      r.2.1 = (r.1.length : Int) := by
  induction blocks with
  | nil =>
    intro dest fs r h
    simp only [mergeBlocks, Except.ok.injEq] at h
    subst h
    simp
  | cons item rest ih =>
    intro dest fs r h
    obtain ⟨fsrc, h1, h2⟩ := mergeBlocks_cons_ok item rest dest fs r h
    obtain ⟨e1, e2⟩ := ih _ _ r h2
    refine ⟨?_, e2⟩
    rw [e1, List.map_cons, List.flatten_cons, h1, Option.getD_some, List.append_assoc]
    congr 2
    apply congrArg
    apply List.map_congr_left
    intro b hb
    have hne := mergeBlocks_reads rest _ _ r h2 b hb
    rw [BlockFS.read_remove] at hne ⊢
    by_cases hk : item.filename = b.filename
    · simp [hk] at hne
    · simp [hk]

/-- C9: when the merge loop of `FileDownload.download` succeeds on a destination whose
length equals `fd.offset`, the destination is its previous content followed by the
concatenation of the block files' contents in block order, whatever the length of each
block file, `fd.offset` has grown by exactly the number of bytes appended, and it equals
the new destination length. -/
theorem C9_merge_appends (blocks : List BlockFile) (dest : List Byte) (fs : BlockFS)
    (dest1 : List Byte) (fdOffset1 : Int) (fs1 : BlockFS)
    (h : mergeBlocks blocks dest (dest.length : Int) fs = .ok (dest1, fdOffset1, fs1)) :
    dest1 = dest ++ (blocks.map (fun b => (BlockFS.read fs b.filename).getD [])).flatten ∧
      fdOffset1 = (dest.length : Int) +
        (((blocks.map (fun b => (BlockFS.read fs b.filename).getD [])).flatten.length : Nat) : Int) ∧
      fdOffset1 = (dest1.length : Int) := by
  obtain ⟨e1, e2⟩ := mergeBlocks_spec blocks dest fs _ h
  simp only at e1 e2
  refine ⟨e1, ?_, e2⟩
  rw [e2, e1, List.length_append]
  push_cast
  rfl

/-- Witness for C9: two block files merged after a destination of one byte. -/
theorem C9_merge_appends_witness :
    [9, 1, 2, 3, 4, 5] = [9] ++ ([mkBlock 0 1, mkBlock 2 4].map
        (fun b => (BlockFS.read [((2, 4), [3, 4, 5]), ((0, 1), [1, 2])] b.filename).getD [])).flatten ∧
      (6 : Int) = (([9] : List Byte).length : Int) +
        ((([mkBlock 0 1, mkBlock 2 4].map
          (fun b => (BlockFS.read [((2, 4), [3, 4, 5]), ((0, 1), [1, 2])] b.filename).getD
            [])).flatten.length : Nat) : Int) ∧
      (6 : Int) = (([9, 1, 2, 3, 4, 5] : List Byte).length : Int) :=
  C9_merge_appends [mkBlock 0 1, mkBlock 2 4] [9] [((2, 4), [3, 4, 5]), ((0, 1), [1, 2])]
    [9, 1, 2, 3, 4, 5] 6 [] rfl


/-! ## The scheduling loop and the final check -/

theorem downloadRound_size (server : Server) (w : World) (begin : Int) (flag : Bool)
    (r : World × Int × Bool) (h : downloadRound server w begin flag = .ok r) :
    r.1.fd.size = w.fd.size := by
  unfold downloadRound at h
  simp only at h
  split at h
  · cases h
  · split at h
    · cases h
    · cases h
      rfl

theorem downloadLoop_size (server : Server) : ∀ (fuel : Nat) (w : World) (begin : Int)
    (flag : Bool) (w1 : World), downloadLoop server fuel w begin flag = .ok w1 →
    w1.fd.size = w.fd.size := by
  intro fuel
  induction fuel with
  | zero =>
    intro w begin flag w1 h
    unfold downloadLoop at h
    split at h
    · cases h
    · cases h; rfl
  | succ fuel ih =>
    intro w begin flag w1 h
    unfold downloadLoop at h
    split at h
    · split at h
      · cases h
      · rename_i w2 b2 f2 hr
        rw [ih _ _ _ _ h]
        exact downloadRound_size server w begin flag _ hr
    · cases h; rfl

theorem initWorld_size (fd : FileDownload) (dest : Option (List Byte)) (fs : BlockFS) :
    (fd.initWorld dest fs).fd.size = fd.size := rfl

/-- C10: `FileDownload.download` returns success only with a destination whose final
length equals `fd.size`; and whenever the scheduling loop finishes with a destination
length different from `fd.size`, `download` returns the size-mismatch error. -/
theorem C10_final_size_check (fd : FileDownload) (server : Server)
    (dest : Option (List Byte)) (fs : BlockFS) :
    (∀ w, fd.download server dest fs = .ok w → (w.dest.length : Int) = fd.size) ∧
      (∀ w1, downloadLoop server (fd.loopFuel dest) (fd.initWorld dest fs)
          (fd.initWorld dest fs).fd.offset false = .ok w1 →
        (w1.dest.length : Int) ≠ fd.size →
        fd.download server dest fs = .error (.sizeMismatch (w1.dest.length : Int) fd.size)) := by
  constructor
  · intro w h
    unfold FileDownload.download at h
    split at h
    · cases h
    · rename_i w1 hl
      have hs := downloadLoop_size server _ _ _ _ _ hl
      rw [initWorld_size] at hs
      unfold checkSize at h
      split at h
      · cases h
      · rename_i hne
        cases h
        rw [← hs]
        exact not_not.mp hne
  · intro w1 hl hne
    have hs := downloadLoop_size server _ _ _ _ _ hl
    rw [initWorld_size] at hs
    unfold FileDownload.download
    rw [hl]
    simp only [checkSize, hs]
    rw [if_pos hne]

/-- Witness for C10: a 4 byte source served exactly gives a 4 byte destination; when the
request for byte 1 is refused the loop ends with 3 bytes and `download` reports the size
mismatch. -/
theorem C10_final_size_check_witness :
    ((([1, 2, 3, 4] : List Byte).length : Int) =
        (⟨8, 4, 0, none, [], 0⟩ : FileDownload).size) ∧
      FileDownload.download ⟨8, 4, 0, none, [], 0⟩ (brokenServer [1, 2, 3, 4] 1 .refused)
          none [] =
        .error (.sizeMismatch ((([1, 3, 4] : List Byte).length : Nat) : Int)
          (⟨8, 4, 0, none, [], 0⟩ : FileDownload).size) :=
  ⟨(C10_final_size_check ⟨8, 4, 0, none, [], 0⟩ (exactServer [1, 2, 3, 4]) none []).1
      ⟨⟨8, 4, 0, none, [], 4⟩, [1, 2, 3, 4], []⟩ rfl,
    (C10_final_size_check ⟨8, 4, 0, none, [], 0⟩ (brokenServer [1, 2, 3, 4] 1 .refused)
      none []).2 ⟨⟨8, 4, 0, some .network, [], 3⟩, [1, 3, 4], []⟩ rfl (by decide)⟩


theorem runBlocks_error (server : Server) : ∀ (bls : List BlockFile) (fs : BlockFS)
    (err : Option DownloadErr) (e : DownloadErr),
    runBlocks server bls fs err = .error e → e = .panicked := by
  intro bls
  induction bls with
  | nil => intro fs err e h; simp [runBlocks] at h
  | cons bl rest ih =>
    intro fs err e h
    unfold runBlocks at h
    simp only at h
    split at h
    · cases h; rfl
    · split at h
      · rename_i e1 he
        cases h
        exact ih _ _ _ he
      · cases h

theorem mergeBlocks_error (blocks : List BlockFile) : ∀ (dest : List Byte) (fs : BlockFS)
    (e : DownloadErr), mergeBlocks blocks dest (dest.length : Int) fs = .error e →
    e = .openFailed := by
  induction blocks with
  | nil => intro dest fs e h; simp [mergeBlocks] at h
  | cons item rest ih =>
    intro dest fs e h
    unfold mergeBlocks at h
    cases hr : BlockFS.read fs item.filename with
    | none =>
      simp only [hr] at h
      cases h
      rfl
    | some fsrc =>
      simp only [hr, fb_ok] at h
      have e2 : ((dest.length : Int) + (fsrc.length : Int)) = ((dest ++ fsrc).length : Int) := by
        rw [List.length_append]; push_cast; rfl
      rw [e2] at h
      exact ih _ _ _ h

/-- The facts one successful round preserves: the descriptor keeps its size and block
size, `fd.blocks` is empty again, `fd.offset` is the destination length, and `begin`,
`flag` are those of the planner. -/
theorem downloadRound_ok (server : Server) (w : World) (begin : Int) (flag : Bool)
    (r : World × Int × Bool) (hb : w.fd.blocks = [])
    (hoff : w.fd.offset = (w.dest.length : Int))
    (h : downloadRound server w begin flag = .ok r) :
    r.1.fd.size = w.fd.size ∧ r.1.fd.blockSize = w.fd.blockSize ∧ r.1.fd.blocks = [] ∧
      r.1.fd.offset = (r.1.dest.length : Int) ∧
      r.2.1 = (planBlocks 32 w.fd.size w.fd.blockSize begin flag []).2.1 ∧
      r.2.2 = (planBlocks 32 w.fd.size w.fd.blockSize begin flag []).2.2 := by
  unfold downloadRound at h
  simp only [hb, hoff] at h
  split at h
  · cases h
  · split at h
    · cases h
    · rename_i hm
      cases h
      have := (mergeBlocks_spec _ w.dest _ _ hm).2
      exact ⟨rfl, rfl, rfl, this, rfl, rfl⟩

theorem downloadRound_error (server : Server) (w : World) (begin : Int) (flag : Bool)
    (e : DownloadErr) (hb : w.fd.blocks = [])
    (hoff : w.fd.offset = (w.dest.length : Int))
    (h : downloadRound server w begin flag = .error e) :
    e = .panicked ∨ e = .openFailed := by
  unfold downloadRound at h
  simp only [hb, hoff] at h
  split at h
  · rename_i e1 he
    cases h
    exact Or.inl (runBlocks_error server _ _ _ _ he)
  · split at h
    · rename_i e1 he
      cases h
      exact Or.inr (mergeBlocks_error _ _ _ _ he)
    · cases h

theorem downloadLoop_fuel (server : Server) (size bs : Int) (hbs : 0 ≤ bs)
    (hr1 : size + bs ≤ maxInt64) (hr2 : size < maxInt64) :
    ∀ (fuel : Nat) (w : World) (begin : Int) (flag : Bool),
    w.fd.size = size → w.fd.blockSize = bs → w.fd.blocks = [] →
    w.fd.offset = (w.dest.length : Int) → 0 ≤ begin →
    (flag = true ∨ size - begin < (fuel : Int)) →
    downloadLoop server fuel w begin flag ≠ .error .outOfFuel := by
  intro fuel
  induction fuel with
  | zero =>
    intro w begin flag hs hb hbl hoff h0 hm
    unfold downloadLoop
    split
    · rename_i hc
      rcases hm with hm | hm
      · rw [hm] at hc; simp at hc
      · rw [hs] at hc; simp at hm; omega
    · simp
  | succ fuel ih =>
    intro w begin flag hs hb hbl hoff h0 hm
    unfold downloadLoop
    split
    · rename_i hc
      obtain ⟨hlt, hf⟩ := hc
      subst hf
      split
      · rename_i e he
        rcases downloadRound_error server w begin false e hbl hoff he with h | h <;>
          · rw [h]; simp
      · rename_i w1 b1 f1 hr
        obtain ⟨k1, k2, k3, k4, k5, k6⟩ := downloadRound_ok server w begin false _ hbl hoff hr
        simp only at k1 k2 k3 k4 k5 k6
        rw [hs, hb] at k5 k6
        rw [hs] at hlt
        obtain ⟨_, _, _, i4, i5, _, _, i8, _⟩ :=
          planBlocks_spec size bs hbs hr1 hr2 32 begin h0 (by omega)
        apply ih w1 b1 f1 (by rw [k1, hs]) (by rw [k2, hb]) k3 k4 (by rw [k5]; omega)
        rcases i8 (i4 (by decide) (by omega)) with h | h
        · right
          rw [k5]
          rcases hm with hm | hm
          · cases hm
          · push_cast at hm; omega
        · left
          rw [k6]; exact h
    · simp

/-- Within the `int64` range the fuel given to the scheduling loop is enough:
`download` never stops for lack of fuel. -/
theorem download_fuel_enough (fd : FileDownload) (server : Server)
    (dest : Option (List Byte)) (fs : BlockFS) (hblocks : fd.blocks = [])
    (hbs : 0 ≤ fd.blockSize) (hr1 : fd.size + fd.blockSize ≤ maxInt64)
    (hr2 : fd.size < maxInt64) :
    fd.download server dest fs ≠ .error .outOfFuel := by
  have h := downloadLoop_fuel server fd.size fd.blockSize hbs hr1 hr2 (fd.loopFuel dest)
    (fd.initWorld dest fs) (fd.initWorld dest fs).fd.offset false rfl rfl hblocks rfl
    (by simp [FileDownload.initWorld])
    (by
      right
      simp only [FileDownload.initWorld, FileDownload.loopFuel]
      push_cast
      omega)
  unfold FileDownload.download
  split
  · rename_i e he
    intro hc
    cases hc
    exact h he
  · unfold checkSize
    split <;> simp


/-! ## Resuming one block against an exact server -/

theorem readStep_fits (bl : BlockFile) (file data : List Byte) (err : Option ReadErr)
    (hoff : bl.offset = (file.length : Int)) (h4 : data.length ≤ 4096)
    (hneed : (data.length : Int) ≤ bl.end_ + 1 - bl.offset)
    (hmax : bl.end_ < maxInt64) (hmin : 0 ≤ bl.end_) :
    bl.readStep file data err =
      ({ bl with offset := bl.offset + data.length }, file ++ data,
        match err with
        | none => .continue_
        | some .eof => .return_ none
        | some .failed => .return_ (some .readFailed)) := by
  unfold maxInt64 at hmax
  have hpos : (0 : Int) ≤ (file.length : Int) := Int.natCast_nonneg _
  have hw : wrap64 (wrap64 (bl.end_ + 1) - bl.offset) = bl.end_ + 1 - bl.offset := by
    rw [wrap64_eq (bl.end_ + 1) (by omega) (by omega)]
    rw [wrap64_eq _ (by omega) (by omega)]
  unfold BlockFile.readStep
  simp only [List.take_of_length_le h4, hw]
  have hn : ¬ ((data.length : Int) > bl.end_ + 1 - bl.offset) := by omega
  simp only [hn, false_and, if_false]
  rw [hoff, writeAt_end]
  cases err with
  | none => rfl
  | some e => cases e <;> rfl

theorem readLoop_cons (c : Chunk) (rest : List Chunk) (bl : BlockFile) (file : List Byte) :
    BlockFile.readLoop (c :: rest) bl file =
      match bl.readStep file c.data c.err with
      | (bl1, file1, .continue_) => BlockFile.readLoop rest bl1 file1
      | (bl1, file1, .return_ e) => (bl1, file1, e) := rfl

theorem readLoop_bodyChunks : ∀ (fuel : Nat) (data : List Byte) (bl : BlockFile)
    (file : List Byte), bl.offset = (file.length : Int) → data.length < fuel →
    (data.length : Int) ≤ bl.end_ + 1 - bl.offset → bl.end_ < maxInt64 → 0 ≤ bl.end_ →
    BlockFile.readLoop (bodyChunks fuel data) bl file =
      ({ bl with offset := bl.offset + data.length }, file ++ data, none) := by
  intro fuel
  induction fuel with
  | zero => intro data bl file _ h; omega
  | succ fuel ih =>
    intro data bl file hoff hf hneed hmax hmin
    unfold bodyChunks
    by_cases hs : data.length ≤ 4096
    · rw [if_pos hs, readLoop_cons]
      simp only
      rw [readStep_fits bl file data (some .eof) hoff hs hneed hmax hmin]
    · rw [if_neg hs]
      have hl : (data.take 4096).length = 4096 := by
        rw [List.length_take]; omega
      have hd : (data.drop 4096).length = data.length - 4096 := List.length_drop 4096 data
      have h4 : (data.take 4096).length ≤ 4096 := by rw [hl]
      have hn1 : ((data.take 4096).length : Int) ≤ bl.end_ + 1 - bl.offset := by
        rw [hl]; push_cast; omega
      rw [readLoop_cons]
      simp only
      rw [readStep_fits bl file (data.take 4096) none hoff h4 hn1 hmax hmin]
      simp only
      have key := ih (data.drop 4096)
        { bl with offset := bl.offset + ((data.take 4096).length : Int) }
        (file ++ data.take 4096)
        (by
          show bl.offset + ((data.take 4096).length : Int) = _
          rw [List.length_append, hoff]; push_cast; rfl)
        (by omega)
        (by
          show ((data.drop 4096).length : Int) ≤
            bl.end_ + 1 - (bl.offset + ((data.take 4096).length : Int))
          rw [hd, hl]; push_cast; omega)
        hmax hmin
      rw [key, List.append_assoc, List.take_append_drop, hl, hd]
      congr 1
      show ({ bl with offset := bl.offset + ((4096 : Nat) : Int) +
        ((data.length - 4096 : Nat) : Int) } : BlockFile) = _
      congr 1
      omega

theorem BlockFS.read_write (fs : BlockFS) (name : Int × Int) (content : List Byte) :
    BlockFS.read (BlockFS.write fs name content) name = some content := by
  simp [BlockFS.write, BlockFS.read]


theorem download_exact (source : List Byte) (s e L : Nat) (name : Int × Int)
    (hL : s + L ≤ e) (hlen : e < source.length) (hmax : (e : Int) < maxInt64) :
    BlockFile.download
        { filename := name, start := (s : Int) + (L : Int), end_ := (e : Int),
          offset := (L : Int) }
        (exactServer source) ((source.drop s).take L) =
      ({ filename := name, start := (s : Int) + (L : Int), end_ := (e : Int),
          offset := (L : Int) + ((e + 1 - (s + L) : Nat) : Int) },
        (source.drop s).take (e + 1 - s), none) := by
  have hpl : ((source.drop s).take L).length = L := by
    rw [List.length_take, List.length_drop]; omega
  have hsl : ((source.drop (s + L)).take (e + 1 - (s + L))).length = e + 1 - (s + L) := by
    rw [List.length_take, List.length_drop]; omega
  have t1 : ((s : Int) + (L : Int)).toNat = s + L := by omega
  have t2 : ((e : Int) + 1 - ((s : Int) + (L : Int))).toNat = e + 1 - (s + L) := by omega
  unfold BlockFile.download exactServer
  simp only [t1, t2]
  have key := readLoop_bodyChunks (source.length + 1)
    ((source.drop (s + L)).take (e + 1 - (s + L)))
    { filename := name, start := (s : Int) + (L : Int), end_ := (e : Int),
      offset := (L : Int) }
    ((source.drop s).take L)
    (by show (L : Int) = _; rw [hpl])
    (by rw [hsl]; omega)
    (by show (_ : Int) ≤ (e : Int) + 1 - (L : Int); rw [hsl]; omega)
    hmax
    (by show (0 : Int) ≤ (e : Int); omega)
  rw [key, hsl]
  congr 2
  have e1 : e + 1 - s = L + (e + 1 - (s + L)) := by omega
  rw [e1, List.take_add, List.drop_drop]

theorem startDownload_fetch (bl : BlockFile) (server : Server) (fs : BlockFS) (b : Bool)
    (st : Int)
    (h : isFileExit ((BlockFS.read fs bl.filename).map List.length)
      (wrap64 (bl.end_ - bl.start)) = (b, st))
    (hst : ¬ (b = true ∧ st < 0)) :
    bl.startDownload server fs =
      ((BlockFile.download { bl with start := wrap64 (bl.start + st), offset := st } server
          (if b = true then (BlockFS.read fs bl.filename).getD [] else [])).1,
        BlockFS.write fs bl.filename
          (BlockFile.download { bl with start := wrap64 (bl.start + st), offset := st } server
            (if b = true then (BlockFS.read fs bl.filename).getD [] else [])).2.1,
        wrap64 (bl.end_ - bl.start),
        (BlockFile.download { bl with start := wrap64 (bl.start + st), offset := st } server
          (if b = true then (BlockFS.read fs bl.filename).getD [] else [])).2.2) := by
  unfold BlockFile.startDownload
  simp only [h]
  have hc : (b && decide (st < 0)) = false := by
    cases b with
    | false => rfl
    | true =>
      have : ¬ st < 0 := fun hlt => hst ⟨rfl, hlt⟩
      simp [this]
  rw [hc]
  rfl

/-- Resume of a block: for a block `[s, e]` inside the source, whose block file is absent
or holds the first `L < e - s` bytes of the range, `startDownload` against an exact server
leaves the block file equal to the source bytes `s..e` and returns no error. -/
theorem startDownload_resumes (source : List Byte) (s e L : Nat) (fs : BlockFS)
    (hlen : e < source.length) (hmax : (e : Int) < maxInt64) (hse : s + L ≤ e)
    (hfile : (L < e - s ∧
        BlockFS.read fs ((s : Int), (e : Int)) = some ((source.drop s).take L)) ∨
      (L = 0 ∧ BlockFS.read fs ((s : Int), (e : Int)) = none)) :
    BlockFS.read ((mkBlock s e).startDownload (exactServer source) fs).2.1
        ((s : Int), (e : Int)) = some ((source.drop s).take (e + 1 - s)) ∧
      ((mkBlock s e).startDownload (exactServer source) fs).2.2.2 = none := by
  have hmax2 := hmax
  unfold maxInt64 at hmax2
  have hpl : ((source.drop s).take L).length = L := by
    rw [List.length_take, List.length_drop]; omega
  have hw : wrap64 ((mkBlock s e).end_ - (mkBlock s e).start) = (e : Int) - (s : Int) :=
    wrap64_eq _ (by show (_ : Int) ≤ (e : Int) - (s : Int); omega)
      (by show (e : Int) - (s : Int) ≤ _; omega)
  have hw2 : wrap64 ((mkBlock s e).start + (L : Int)) = (s : Int) + (L : Int) :=
    wrap64_eq _ (by show (_ : Int) ≤ (s : Int) + (L : Int); omega)
      (by show (s : Int) + (L : Int) ≤ _; omega)
  have hd := download_exact source s e L ((s : Int), (e : Int)) (by omega) hlen hmax
  have hfetch : ∃ b, isFileExit ((BlockFS.read fs (mkBlock s e).filename).map List.length)
        (wrap64 ((mkBlock s e).end_ - (mkBlock s e).start)) = (b, (L : Int)) ∧
      (if b = true then (BlockFS.read fs (mkBlock s e).filename).getD [] else []) =
        (source.drop s).take L := by
    rw [hw]
    rcases hfile with ⟨hL, hf⟩ | ⟨h0, hf⟩
    · refine ⟨true, ?_, ?_⟩
      · have hf2 : BlockFS.read fs (mkBlock s e).filename = some ((source.drop s).take L) := hf
        rw [hf2, Option.map_some', hpl]
        unfold isFileExit
        simp only
        rw [if_neg (by omega)]
      · have hf2 : BlockFS.read fs (mkBlock s e).filename = some ((source.drop s).take L) := hf
        rw [if_pos rfl, hf2, Option.getD_some]
    · subst h0
      refine ⟨false, ?_, ?_⟩
      · have hf2 : BlockFS.read fs (mkBlock s e).filename = none := hf
        rw [hf2]
        rfl
      · rw [if_neg (by decide)]
        rfl
  obtain ⟨b, hb1, hb2⟩ := hfetch
  have hnn : ¬ (b = true ∧ (L : Int) < 0) := by
    rintro ⟨_, h⟩
    omega
  rw [startDownload_fetch (mkBlock s e) (exactServer source) fs b (L : Int) hb1 hnn]
  rw [hb2, hw2]
  have hbl : BlockFile.mk (mkBlock (s : Int) (e : Int)).filename ((s : Int) + (L : Int))
      (mkBlock (s : Int) (e : Int)).end_ (L : Int) =
      BlockFile.mk ((s : Int), (e : Int)) ((s : Int) + (L : Int)) (e : Int) (L : Int) := rfl
  rw [hbl, hd]
  exact ⟨BlockFS.read_write _ _ _, rfl⟩


/-- The shortcut of `startDownload`: a block file of at least `end - start` bytes is taken
for complete, nothing is requested and the file is left as it is.  For an inclusive range
this includes a file that is one byte short. -/
theorem startDownload_skips (bl : BlockFile) (server : Server) (fs : BlockFS)
    (content : List Byte) (h : BlockFS.read fs bl.filename = some content)
    (hlen : (content.length : Int) ≥ wrap64 (bl.end_ - bl.start)) :
    bl.startDownload server fs =
      ({ bl with offset := wrap64 (bl.end_ - bl.start) }, fs,
        wrap64 (bl.end_ - bl.start), none) := by
  unfold BlockFile.startDownload
  simp only [h, Option.map_some', isFileExit, hlen, if_true]
  rfl

/-- Within the `int64` range and with enough fuel, the on-wire byte counts of all planned
blocks plus the starting offset add up to `size + 1`, or to `size` when the last round
stops exactly at `begin = size`. -/
theorem plannedWireBytes_total (size bs : Int) (hbs : 0 ≤ bs) (hr1 : size + bs ≤ maxInt64)
    (hr2 : size < maxInt64) : ∀ (fuel : Nat) (begin : Int), 0 ≤ begin → begin < size →
    size - begin < (fuel : Int) →
    plannedWireBytes fuel size bs begin + begin = size + 1 ∨
      plannedWireBytes fuel size bs begin + begin = size := by
  intro fuel
  induction fuel with
  | zero => intro begin h0 hlt hf; simp at hf; omega
  | succ fuel ih =>
    intro begin h0 hlt hf
    obtain ⟨_, _, _, i4, i5, i6, _, i8, i9⟩ :=
      planBlocks_spec size bs hbs hr1 hr2 32 begin h0 (by omega)
    have hprog := i8 (i4 (by decide) (by omega))
    have hunf : plannedWireBytes (fuel + 1) size bs begin =
        ((planBlocks 32 size bs begin false []).1.map BlockFile.wireCount).sum +
          ((planRounds fuel size bs (planBlocks 32 size bs begin false []).2.1
            (planBlocks 32 size bs begin false []).2.2).map
              (fun r => (r.blocks.map BlockFile.wireCount).sum)).sum := by
      simp [plannedWireBytes, planRounds, hlt]
    rw [hunf, i9]
    cases hflag : (planBlocks 32 size bs begin false []).2.2 with
    | true =>
      have hnil : planRounds fuel size bs (planBlocks 32 size bs begin false []).2.1 true = [] := by
        cases fuel with
        | zero => rfl
        | succ n => simp [planRounds]
      rw [hnil]
      left
      simp
    | false =>
      rw [hflag] at hprog
      have hb : begin < (planBlocks 32 size bs begin false []).2.1 := by
        rcases hprog with h | h
        · exact h
        · cases h
      by_cases hc : (planBlocks 32 size bs begin false []).2.1 < size
      · have := ih (planBlocks 32 size bs begin false []).2.1 (by omega) hc
          (by push_cast at hf; omega)
        unfold plannedWireBytes at this
        simp only [Bool.false_eq_true, if_false]
        omega
      · rw [planRounds_ge _ _ _ _ _ hc]
        simp only [Bool.false_eq_true, if_false, List.map_nil, List.sum_nil]
        omega


/-! ## Evaluations of one block's transfer and of a failing round -/

/-- C1 (evaluation at the failing input): for the block `[0, 3]` of a source starting
`10, 11, 12, 13, 14`, with a block file that already holds the first 3 bytes of the
range, `startDownload` compares the file length with `end - start = 3`, takes the file for
complete and returns without a request: the block file keeps 3 bytes instead of the 4
bytes `10, 11, 12, 13` of the range.  With only 2 bytes present the transfer is resumed
and the file is completed. -/
theorem C1_resume_one_byte_short :
    BlockFile.startDownload (mkBlock 0 3) (exactServer [10, 11, 12, 13, 14])
        [((0, 3), [10, 11, 12])] =
      ({ filename := (0, 3), start := 0, end_ := 3, offset := 3 },
        [((0, 3), [10, 11, 12])], 3, none) ∧
    ([10, 11, 12] : List Byte) ≠ ([10, 11, 12, 13, 14] : List Byte).take 4 ∧
    BlockFile.startDownload (mkBlock 0 3) (exactServer [10, 11, 12, 13, 14])
        [((0, 3), [10, 11])] =
      ({ filename := (0, 3), start := 2, end_ := 3, offset := 4 },
        [((0, 3), [10, 11, 12, 13])], 3, none) := by
  refine ⟨by decide, by decide, by decide⟩

/-- C2 (evaluation at the failing input): a 4 byte source with the destination absent gets
block size 0 and is planned as the blocks
`[0,0]`, `[1,1]`, `[2,2]`, `[3,3]`, `[4,4]`.  When the body of block `[1,1]` delivers its
byte and then fails, `startDownload` of that block returns an error, yet `download`
merges every block file, removes it and returns success.  When the request of block
`[1,1]` is refused, its empty block file is merged and removed like the others, and only
the final size check reports an error. -/
theorem C2_failed_round_is_merged :
    NewFileDownload (some ⟨true, 4⟩) none = .ok ⟨8, 4, 0, none, [], 0⟩ ∧
    (BlockFile.startDownload (mkBlock 1 1)
        (brokenServer [1, 2, 3, 4] 1 (.body [⟨[2], some .failed⟩])) []).2.2.2 =
      some .readFailed ∧
    FileDownload.download ⟨8, 4, 0, none, [], 0⟩
        (brokenServer [1, 2, 3, 4] 1 (.body [⟨[2], some .failed⟩])) none [] =
      .ok ⟨⟨8, 4, 0, some .readFailed, [], 4⟩, [1, 2, 3, 4], []⟩ ∧
    (BlockFile.startDownload (mkBlock 1 1) (brokenServer [1, 2, 3, 4] 1 .refused) []).2.2.2 =
      some .network ∧
    downloadRound (brokenServer [1, 2, 3, 4] 1 .refused)
        (FileDownload.initWorld ⟨8, 4, 0, none, [], 0⟩ none []) 0 false =
      .ok (⟨⟨8, 4, 0, some .network, [], 3⟩, [1, 3, 4], []⟩, 5, false) ∧
    FileDownload.download ⟨8, 4, 0, none, [], 0⟩ (brokenServer [1, 2, 3, 4] 1 .refused)
        none [] = .error (.sizeMismatch 3 4) := by
  refine ⟨rfl, by decide, rfl, by decide, rfl, rfl⟩

/-- C3 (evaluation at the failing input): for the block `[10, 19]`, whose budget is 10
bytes, a body that delivers 15 bytes in one read is written whole: `needSize` is
`end + 1 - offset = 20`, and after `download` returns the local offset is 15. -/
theorem C3_writes_past_budget :
    BlockFile.download (mkBlock 10 19)
        (fun _ _ => .body [⟨[1, 2, 3, 4, 5, 6, 7, 8, 9, 10, 11, 12, 13, 14, 15], some .eof⟩])
        [] =
      ({ filename := (10, 19), start := 10, end_ := 19, offset := 15 },
        [1, 2, 3, 4, 5, 6, 7, 8, 9, 10, 11, 12, 13, 14, 15], none) ∧
    ¬ ((15 : Int) ≤ 19 + 1 - 10) := by
  refine ⟨by decide, by decide⟩


end GoDownload
